import Mathlib

/-!
Verification development for the TDT (token-and-duration transducer) decode
loop and token assembly of `scripts/onnx/test_tdt_decode.py`.

The decode loop (lines 59-83 of the script) is embedded as a fuel-indexed
state machine.  The ONNX decoder session is abstracted as a deterministic
model: given the recurrent state and the previous label it produces a joint
logits row for each frame `t` and an updated recurrent state; this matches
the script, where `dec_sess.run` consumes `(targets, lstm_h, lstm_c)` and
returns `(joint, lstm_h, lstm_c)`, and the engine then selects the row
`joint[0, t, 0, :]`.  Logit scores are modelled as integers: every claim
under study is about control flow and is insensitive to the score type.
-/

/-- Lowest-index argmax of a list of scores, mirroring `np.argmax` (ties
resolve to the lowest index; the empty list gives 0, total where numpy
would raise). -/
def argmaxIdx : List Int → Nat
  | [] => 0
  | x :: xs =>
    let j := argmaxIdx xs
    if x < xs.getD j x then j + 1 else 0

/-- Deterministic stand-in for the decoder ONNX session of the script:
`logits st lastLabel t` is the joint logits row `joint[0, t, 0, :]`
produced from recurrent state `st` and previous label `lastLabel`;
`next st lastLabel` is the updated recurrent state `(lstm_h, lstm_c)`. -/
structure TDTModel (σ : Type) where
  logits : σ → Nat → Nat → List Int
  next : σ → Nat → σ

/-- State of the decode loop: emitted tokens, frame index `t`, previous
label, iteration counter `iters`, and the recurrent model state. -/
structure DecSt (σ : Type) where
  tokens : List Nat
  t : Nat
  lastLabel : Nat
  iters : Nat
  rnn : σ
  deriving DecidableEq

/-- Initial decode state: `t = 0`, `last_label = blank_id`, zeroed
recurrent state, no tokens, `iters = 0` (script lines 56-62). -/
def initSt (blankId : Nat) (rnn0 : σ) : DecSt σ :=
  ⟨[], 0, blankId, 0, rnn0⟩

/-- One body execution of the decode loop (script lines 64-83).  The
recurrent state is committed unconditionally (lines 73-74 run before the
blank/emit branch).  `best` is the argmax over `logits[:blank_id+1]`;
on emit, `dur_idx` is the argmax over `logits[blank_id+1:]` and `t`
advances by `max 1 (durs[dur_idx])`.  An out-of-range duration index is
modelled as duration 0 before the `max 1` floor (the script would raise
there; no claim exercises that case). -/
def stepOnce (M : TDTModel σ) (blankId : Nat) (durs : List Nat)
    (s : DecSt σ) : DecSt σ :=
  let lg := M.logits s.rnn s.lastLabel s.t
  let rnn' := M.next s.rnn s.lastLabel
  let best := argmaxIdx (lg.take (blankId + 1))
  if best = blankId then
    ⟨s.tokens, s.t + 1, s.lastLabel, s.iters + 1, rnn'⟩
  else
    let durIdx := argmaxIdx (lg.drop (blankId + 1))
    ⟨s.tokens ++ [best], s.t + max 1 (durs.getD durIdx 0), best,
      s.iters + 1, rnn'⟩

/-- The decode loop with explicit fuel: `while t < T and iters < fuel0`
where the fuel counts the loop-body executions still allowed.  The script
runs it with initial fuel `enc_T * 10` (line 63). -/
def run (M : TDTModel σ) (T blankId : Nat) (durs : List Nat) :
    Nat → DecSt σ → DecSt σ
  | 0, s => s
  | fuel + 1, s =>
    if s.t < T then run M T blankId durs fuel (stepOnce M blankId durs s)
    else s

/-- Full decode: the loop of the script started from the initial state with
iteration cap `T * mult` (`mult = 10` in the script). -/
def decode (M : TDTModel σ) (rnn0 : σ) (T blankId mult : Nat)
    (durs : List Nat) : DecSt σ :=
  run M T blankId durs (T * mult) (initSt blankId rnn0)

/-- Truncation flag of the decode contract: the iteration cap was reached
while the frame pointer had not yet exhausted the utterance. -/
def truncatedFlag (T cap : Nat) (s : DecSt σ) : Bool :=
  decide (cap ≤ s.iters) && decide (s.t < T)

/-- The pair the decode contract returns: emitted token ids and the
truncation flag. -/
def decodeResult (M : TDTModel σ) (rnn0 : σ) (T blankId mult : Nat)
    (durs : List Nat) : List Nat × Bool :=
  let s := decode M rnn0 T blankId mult durs
  (s.tokens, truncatedFlag T (T * mult) s)

/-- The sequence of loop states at which the guard of the decode loop is
evaluated: every element but the last executes a loop body, the last one
is the state at loop exit (or at fuel exhaustion). -/
def runTrace (M : TDTModel σ) (T blankId : Nat) (durs : List Nat) :
    Nat → DecSt σ → List (DecSt σ)
  | 0, s => [s]
  | fuel + 1, s =>
    if s.t < T then
      s :: runTrace M T blankId durs fuel (stepOnce M blankId durs s)
    else [s]

/-- The state trace of a full decode invocation. -/
def decodeTrace (M : TDTModel σ) (rnn0 : σ) (T blankId mult : Nat)
    (durs : List Nat) : List (DecSt σ) :=
  runTrace M T blankId durs (T * mult) (initSt blankId rnn0)

/-- Python's single-character `str.replace(marker, ' ')` on the subword
boundary marker U+2581, at the character-list level. -/
def replaceMarker (l : List Char) : List Char :=
  l.map (fun c => if c = '▁' then ' ' else c)

/-- Python's `str.strip()`: drop leading and trailing whitespace. -/
def pyStrip (l : List Char) : List Char :=
  ((l.dropWhile Char.isWhitespace).reverse.dropWhile Char.isWhitespace).reverse

/-- Token assembly (script line 85):
`''.join(vocab[tid] for tid in tokens if tid < len(vocab))`
followed by `.replace(U+2581, ' ').strip()`.  Ids at or above the
vocabulary size are dropped by the filter; emitted ids are natural numbers
(argmax results), so the lower bound of the id range holds by type. -/
def assemble (tokens : List Nat) (vocab : List String) : String :=
  List.asString (pyStrip (replaceMarker
    (List.flatten (tokens.filterMap (fun tid =>
      if tid < vocab.length then some (vocab.getD tid "").data else none)))))

/-- Stub model for Scenario B: vocabulary id 7 always ranks highest in the
vocabulary+blank segment (indices 0-10 with `blankId = 10`), duration
index 2 highest in the duration segment; the recurrent state (a counter)
changes on every call. -/
def stubB : TDTModel Nat :=
  ⟨fun _ _ _ => [0, 0, 0, 0, 0, 0, 0, 1, 0, 0, 0, 0, 0, 1, 0, 0],
    fun r _ => r + 1⟩

/-- Stub model that always ranks blank highest (`blankId = 2`: the
vocabulary+blank segment [0,0,5] has its maximum at index 2) while its
recurrent state (a counter) changes on every call. -/
def stubBlank : TDTModel Nat :=
  ⟨fun _ _ _ => [0, 0, 5, 9, 9], fun r _ => r + 1⟩

/-- Stub model for Scenario C (`blankId = 3`): never ranks blank highest
(index 0 wins in the vocabulary+blank segment [9,0,0,0]) and always
selects duration index 0, whose duration value in `[0,1,2,3,4]` is 0. -/
def stubDurZero : TDTModel Nat :=
  ⟨fun _ _ _ => [9, 0, 0, 0, 9, 0, 0, 0, 0], fun r _ => r + 1⟩

/-- The four-piece vocabulary of Scenario D. -/
def vocabD : List String := ["▁hi", "▁there", "foo", "bar"]

/-! ## Helper lemmas -/

theorem argmaxIdx_lt_length : ∀ (l : List Int), l ≠ [] → argmaxIdx l < l.length := by
  intro l
  induction l with
  | nil => intro h; exact absurd rfl h
  | cons x xs ih =>
    intro _
    simp only [argmaxIdx]
    split
    · rename_i hx
      cases xs with
      | nil => simp [argmaxIdx, List.getD] at hx
      | cons y ys =>
        have h1 := ih (by simp)
        simp only [List.length_cons] at h1 ⊢
        omega
    · simp

theorem argmaxIdx_take_le (l : List Int) (n : Nat) :
    argmaxIdx (l.take (n + 1)) ≤ n := by
  by_cases h : l.take (n + 1) = []
  · simp [h, argmaxIdx]
  · have h1 := argmaxIdx_lt_length _ h
    have h2 : (l.take (n + 1)).length ≤ n + 1 := by
      simp
    omega

theorem stepOnce_t_lt (M : TDTModel σ) (blankId : Nat) (durs : List Nat)
    (s : DecSt σ) : s.t + 1 ≤ (stepOnce M blankId durs s).t := by
  unfold stepOnce
  dsimp only
  split
  · exact Nat.le_refl _
  · dsimp only
    have := Nat.le_max_left 1
      (durs.getD (argmaxIdx ((M.logits s.rnn s.lastLabel s.t).drop (blankId + 1))) 0)
    omega

theorem stepOnce_iters (M : TDTModel σ) (blankId : Nat) (durs : List Nat)
    (s : DecSt σ) : (stepOnce M blankId durs s).iters = s.iters + 1 := by
  unfold stepOnce
  dsimp only
  split <;> rfl

theorem stepOnce_tokens_mem (M : TDTModel σ) (blankId : Nat) (durs : List Nat)
    (s : DecSt σ) (x : Nat) (hx : x ∈ (stepOnce M blankId durs s).tokens) :
    x ∈ s.tokens ∨ x < blankId := by
  revert hx
  unfold stepOnce
  dsimp only
  split
  · intro hx; exact Or.inl hx
  · intro hx
    rename_i hne
    dsimp only at hx
    rcases List.mem_append.mp hx with h | h
    · exact Or.inl h
    · have hx7 : x = argmaxIdx ((M.logits s.rnn s.lastLabel s.t).take (blankId + 1)) := by
        simpa using h
      have hle := argmaxIdx_take_le (M.logits s.rnn s.lastLabel s.t) blankId
      subst hx7
      exact Or.inr (lt_of_le_of_ne hle hne)

theorem run_t_mono (M : TDTModel σ) (T blankId : Nat) (durs : List Nat) :
    ∀ (fuel : Nat) (s : DecSt σ), s.t ≤ (run M T blankId durs fuel s).t := by
  intro fuel
  induction fuel with
  | zero => intro s; simp [run]
  | succ n ih =>
    intro s
    unfold run
    split
    · calc s.t ≤ s.t + 1 := Nat.le_succ _
        _ ≤ (stepOnce M blankId durs s).t := stepOnce_t_lt M blankId durs s
        _ ≤ _ := ih _
    · exact Nat.le_refl _

theorem run_iters_le_fuel (M : TDTModel σ) (T blankId : Nat) (durs : List Nat) :
    ∀ (fuel : Nat) (s : DecSt σ),
      (run M T blankId durs fuel s).iters ≤ s.iters + fuel := by
  intro fuel
  induction fuel with
  | zero => intro s; simp [run]
  | succ n ih =>
    intro s
    unfold run
    split
    · have h1 := ih (stepOnce M blankId durs s)
      have h2 := stepOnce_iters M blankId durs s
      omega
    · omega

theorem run_reaches (M : TDTModel σ) (T blankId : Nat) (durs : List Nat) :
    ∀ (fuel : Nat) (s : DecSt σ), T ≤ s.t + fuel →
      T ≤ (run M T blankId durs fuel s).t := by
  intro fuel
  induction fuel with
  | zero => intro s h; simpa [run] using h
  | succ n ih =>
    intro s h
    unfold run
    split
    · apply ih
      have := stepOnce_t_lt M blankId durs s
      omega
    · omega

theorem run_exit_iters (M : TDTModel σ) (T blankId : Nat) (durs : List Nat) :
    ∀ (fuel : Nat) (s : DecSt σ), (run M T blankId durs fuel s).t < T →
      (run M T blankId durs fuel s).iters = s.iters + fuel := by
  intro fuel
  induction fuel with
  | zero => intro s _; simp [run]
  | succ n ih =>
    intro s h
    unfold run at h ⊢
    by_cases hg : s.t < T
    · rw [if_pos hg] at h ⊢
      have h1 := ih (stepOnce M blankId durs s) h
      have h2 := stepOnce_iters M blankId durs s
      omega
    · rw [if_neg hg] at h
      exact absurd h hg

theorem run_iters_le_T (M : TDTModel σ) (T blankId : Nat) (durs : List Nat) :
    ∀ (fuel : Nat) (s : DecSt σ),
      (run M T blankId durs fuel s).iters ≤ s.iters + (T - s.t) := by
  intro fuel
  induction fuel with
  | zero => intro s; simp [run]
  | succ n ih =>
    intro s
    unfold run
    split
    · have h1 := ih (stepOnce M blankId durs s)
      have h2 := stepOnce_iters M blankId durs s
      have h3 := stepOnce_t_lt M blankId durs s
      rename_i hg
      omega
    · omega

theorem run_tokens_lt (M : TDTModel σ) (T blankId : Nat) (durs : List Nat) :
    ∀ (fuel : Nat) (s : DecSt σ), (∀ x ∈ s.tokens, x < blankId) →
      ∀ x ∈ (run M T blankId durs fuel s).tokens, x < blankId := by
  intro fuel
  induction fuel with
  | zero => intro s h; simpa [run] using h
  | succ n ih =>
    intro s h
    unfold run
    split
    · apply ih
      intro x hx
      rcases stepOnce_tokens_mem M blankId durs s x hx with h1 | h1
      · exact h x h1
      · exact h1
    · exact h

theorem runTrace_ne_nil (M : TDTModel σ) (T blankId : Nat) (durs : List Nat) :
    ∀ (fuel : Nat) (s : DecSt σ), runTrace M T blankId durs fuel s ≠ [] := by
  intro fuel s
  cases fuel with
  | zero => simp [runTrace]
  | succ n =>
    unfold runTrace
    split <;> simp

theorem runTrace_headD (M : TDTModel σ) (T blankId : Nat) (durs : List Nat) :
    ∀ (fuel : Nat) (s d : DecSt σ),
      (runTrace M T blankId durs fuel s).headD d = s := by
  intro fuel s d
  cases fuel with
  | zero => simp [runTrace]
  | succ n =>
    unfold runTrace
    split <;> simp

theorem runTrace_dropLast_lt (M : TDTModel σ) (T blankId : Nat) (durs : List Nat) :
    ∀ (fuel : Nat) (s : DecSt σ),
      ∀ s' ∈ (runTrace M T blankId durs fuel s).dropLast, s'.t < T := by
  intro fuel
  induction fuel with
  | zero => intro s; simp [runTrace]
  | succ n ih =>
    intro s
    unfold runTrace
    split
    · rename_i hg
      intro s' hs'
      rcases hrest : runTrace M T blankId durs n (stepOnce M blankId durs s) with
        _ | ⟨y, ys⟩
      · exact absurd hrest (runTrace_ne_nil M T blankId durs n _)
      · rw [hrest] at hs'
        simp only [List.dropLast_cons₂] at hs'
        rcases List.mem_cons.mp hs' with h | h
        · subst h; exact hg
        · have := ih (stepOnce M blankId durs s) s'
          rw [hrest] at this
          exact this h
    · simp

theorem runTrace_chain (M : TDTModel σ) (T blankId : Nat) (durs : List Nat) :
    ∀ (fuel : Nat) (s : DecSt σ),
      List.Chain' (fun a b : DecSt σ => a.t ≤ b.t)
        (runTrace M T blankId durs fuel s) := by
  intro fuel
  induction fuel with
  | zero => intro s; simp [runTrace]
  | succ n ih =>
    intro s
    unfold runTrace
    split
    · apply List.chain'_cons'.mpr
      refine ⟨?_, ih _⟩
      intro y hy
      have hhead := runTrace_headD M T blankId durs n
        (stepOnce M blankId durs s) s
      have hy' : y = (runTrace M T blankId durs n
          (stepOnce M blankId durs s)).headD s := by
        rcases hh : (runTrace M T blankId durs n
            (stepOnce M blankId durs s)).head? with _ | ⟨z⟩
        · rw [hh] at hy; exact absurd hy (by simp)
        · rw [hh] at hy
          simp only [Option.mem_some_iff] at hy
          subst hy
          simp [List.headD_eq_head?, hh]
      rw [hy', hhead]
      calc s.t ≤ s.t + 1 := Nat.le_succ _
        _ ≤ _ := stepOnce_t_lt M blankId durs s
    · simp

theorem filterMap_filter_none {α β : Type} (f : α → Option β) (p : α → Bool)
    (hfp : ∀ x, p x = false → f x = none) :
    ∀ (l : List α), (l.filter p).filterMap f = l.filterMap f := by
  intro l
  induction l with
  | nil => simp
  | cons x xs ih =>
    by_cases hp : p x = true
    · simp [List.filter_cons, hp, List.filterMap_cons, ih]
    · have hp' : p x = false := by simpa using hp
      simp [List.filter_cons, hp', List.filterMap_cons, hfp x hp', ih]

/-! ## Claim theorems -/

/-- Claim C1: for every encoder output with valid length T ≥ 1 and every
deterministic Prediction/Joint model, the decode loop terminates (it is a
total function here) after at most `T * maxStepMultiplier` loop-body
executions; the reference implementation uses multiplier 10. -/
theorem tdt_decode_iteration_bound {σ : Type} (M : TDTModel σ) (rnn0 : σ)
    (T blankId mult : Nat) (durs : List Nat) (_hT : 1 ≤ T) :
    (decode M rnn0 T blankId mult durs).iters ≤ T * mult := by
  have h := run_iters_le_fuel M T blankId durs (T * mult) (initSt blankId rnn0)
  simpa [decode, initSt] using h

theorem tdt_decode_iteration_bound_witness :
    1 ≤ 3 ∧ (decode stubB 0 3 10 10 [0, 1, 2, 3, 4]).iters ≤ 3 * 10 :=
  ⟨by decide, tdt_decode_iteration_bound stubB 0 3 10 10 [0, 1, 2, 3, 4] (by decide)⟩

/-- Claim C2 is false on the code: the script commits the recurrent state
returned by the decoder call on every step — lines 73-74 run before the
blank branch — so on a blank step the state carried into the next step is
the updated one, not the previous one.  Concretely, with `blankId = 2`
the stub `stubBlank` makes the first step a blank step, yet the recurrent
state after that step differs from the state before it. -/
theorem blank_step_state_commit_cex :
    argmaxIdx ((stubBlank.logits (initSt 2 (0 : Nat)).rnn
        (initSt 2 (0 : Nat)).lastLabel (initSt 2 (0 : Nat)).t).take (2 + 1)) = 2 ∧
    (stepOnce stubBlank 2 [0, 1, 2, 3, 4] (initSt 2 (0 : Nat))).rnn ≠
      (initSt 2 (0 : Nat)).rnn := by
  decide

/-- Claim C2 (amended): on every step whose best label equals `blankId`, no
token is emitted, the previous label is kept, and `t` advances by exactly
1 — but the recurrent state carried into the next step IS the updated
state returned by the Prediction Network call: the code commits it
unconditionally rather than discarding it. -/
theorem blank_step_commits_state {σ : Type} (M : TDTModel σ) (blankId : Nat)
    (durs : List Nat) (s : DecSt σ)
    (h : argmaxIdx ((M.logits s.rnn s.lastLabel s.t).take (blankId + 1)) = blankId) :
    stepOnce M blankId durs s =
      ⟨s.tokens, s.t + 1, s.lastLabel, s.iters + 1, M.next s.rnn s.lastLabel⟩ := by
  unfold stepOnce
  dsimp only
  rw [if_pos h]

theorem blank_step_commits_state_witness :
    stepOnce stubBlank 2 [0, 1, 2, 3, 4] (initSt 2 (0 : Nat)) =
      ⟨[], 1, 2, 1, stubBlank.next 0 2⟩ :=
  blank_step_commits_state stubBlank 2 [0, 1, 2, 3, 4] (initSt 2 0) (by decide)

/-- Claim C3 is false on the code: the frame index can exceed `T` during a
decode.  With `T = 3` and the Scenario-B stub the final loop state has
`t = 4 > 3`, so the invariant `0 ≤ t ≤ T` does not hold at every step. -/
theorem frame_index_exceeds_T_cex :
    ¬ (∀ s' ∈ decodeTrace stubB 0 3 10 10 [0, 1, 2, 3, 4], s'.t ≤ 3) := by
  decide

/-- Claim C3 (amended): throughout every decode invocation, `t < T` holds at
every state at which a loop body begins (every non-final trace state),
`t` is non-decreasing along the trace, and the step counter is bounded by
`T * maxStepMultiplier`; the final frame index, however, may exceed `T`
(by up to the largest duration minus one), so `t ≤ T` holds only at the
states where a step executes, not after the last emission. -/
theorem frame_index_invariant_amended {σ : Type} (M : TDTModel σ) (rnn0 : σ)
    (T blankId mult : Nat) (durs : List Nat) :
    (∀ s' ∈ (decodeTrace M rnn0 T blankId mult durs).dropLast, s'.t < T) ∧
    List.Chain' (fun a b : DecSt σ => a.t ≤ b.t)
      (decodeTrace M rnn0 T blankId mult durs) ∧
    (decode M rnn0 T blankId mult durs).iters ≤ T * mult := by
  refine ⟨?_, ?_, ?_⟩
  · exact runTrace_dropLast_lt M T blankId durs (T * mult) (initSt blankId rnn0)
  · exact runTrace_chain M T blankId durs (T * mult) (initSt blankId rnn0)
  · have h := run_iters_le_fuel M T blankId durs (T * mult) (initSt blankId rnn0)
    simpa [decode, initSt] using h

theorem frame_index_invariant_amended_witness :
    (initSt 10 (0 : Nat)).t < 3 ∧
    (decode stubB 0 3 10 10 [0, 1, 2, 3, 4]).iters ≤ 3 * 10 :=
  ⟨(frame_index_invariant_amended stubB 0 3 10 10 [0, 1, 2, 3, 4]).1
      (initSt 10 0) (by decide),
   (frame_index_invariant_amended stubB 0 3 10 10 [0, 1, 2, 3, 4]).2.2⟩

/-- Claim C4: the frame index is non-decreasing across steps (from any loop
state, running any amount of remaining fuel never decreases `t`), and
whenever the decode terminates without the truncation flag set, the final
frame index is at least `T`. -/
theorem t_monotone_and_reaches_T {σ : Type} (M : TDTModel σ) (rnn0 : σ)
    (T blankId mult : Nat) (durs : List Nat) :
    (∀ (fuel : Nat) (s : DecSt σ), s.t ≤ (run M T blankId durs fuel s).t) ∧
    (truncatedFlag T (T * mult) (decode M rnn0 T blankId mult durs) = false →
      T ≤ (decode M rnn0 T blankId mult durs).t) := by
  constructor
  · exact run_t_mono M T blankId durs
  · intro hf
    by_contra hle
    have hlt : (decode M rnn0 T blankId mult durs).t < T := by omega
    have hexit := run_exit_iters M T blankId durs (T * mult) (initSt blankId rnn0)
      (by simpa [decode] using hlt)
    have hca : T * mult ≤ (decode M rnn0 T blankId mult durs).iters := by
      show T * mult ≤ (run M T blankId durs (T * mult) (initSt blankId rnn0)).iters
      rw [hexit]
      simp [initSt]
    have htrue : truncatedFlag T (T * mult) (decode M rnn0 T blankId mult durs) = true := by
      unfold truncatedFlag
      rw [Bool.and_eq_true, decide_eq_true_eq, decide_eq_true_eq]
      exact ⟨hca, hlt⟩
    rw [htrue] at hf
    simp at hf

theorem t_monotone_and_reaches_T_witness :
    3 ≤ (decode stubB 0 3 10 10 [0, 1, 2, 3, 4]).t :=
  (t_monotone_and_reaches_T stubB 0 3 10 10 [0, 1, 2, 3, 4]).2 (by decide)

/-- Claim C5 is false on the code: with a stub Joint Network that never
ranks blank highest and always selects duration index 0 (duration value 0
in `[0,1,2,3,4]`), the `max(1, duration)` floor advances `t` by 1 each
iteration, so with `T = 2` and multiplier 10 the loop stops after two
iterations with two tokens and `truncated = false` — it does not hit the
cap of 20, and the output length is 2, not the cap. -/
theorem duration_zero_no_truncation_cex :
    decodeResult stubDurZero 0 2 3 10 [0, 1, 2, 3, 4] = ([0, 0], false) ∧
    (decode stubDurZero 0 2 3 10 [0, 1, 2, 3, 4]).tokens.length ≠ 2 * 10 := by
  decide

/-- One emit step under a stub that avoids blank and selects a zero
duration: `t` advances by exactly 1 (the `max 1` floor), one token is
appended, and the iteration counter increases by 1. -/
theorem stepOnce_emit_dur0 {σ : Type} (M : TDTModel σ) (blankId : Nat)
    (durs : List Nat) (s : DecSt σ)
    (hb : argmaxIdx ((M.logits s.rnn s.lastLabel s.t).take (blankId + 1)) ≠ blankId)
    (hd : durs.getD (argmaxIdx ((M.logits s.rnn s.lastLabel s.t).drop (blankId + 1))) 0 = 0) :
    (stepOnce M blankId durs s).t = s.t + 1 ∧
    (stepOnce M blankId durs s).iters = s.iters + 1 ∧
    (stepOnce M blankId durs s).tokens.length = s.tokens.length + 1 := by
  unfold stepOnce
  dsimp only
  rw [if_neg hb]
  dsimp only
  rw [hd]
  refine ⟨by omega, rfl, by simp⟩

/-- Under a blank-avoiding, zero-duration stub, the loop started at any
state with `t ≤ T` and enough fuel ends exactly at `t = T`, having
executed `T - t` iterations and emitted `T - t` tokens. -/
theorem run_durzero {σ : Type} (M : TDTModel σ) (T blankId : Nat)
    (durs : List Nat)
    (hblank : ∀ (r : σ) (l t : Nat),
      argmaxIdx ((M.logits r l t).take (blankId + 1)) ≠ blankId)
    (hdur : ∀ (r : σ) (l t : Nat),
      durs.getD (argmaxIdx ((M.logits r l t).drop (blankId + 1))) 0 = 0) :
    ∀ (fuel : Nat) (s : DecSt σ), s.t ≤ T → T ≤ s.t + fuel →
      (run M T blankId durs fuel s).t = T ∧
      (run M T blankId durs fuel s).iters = s.iters + (T - s.t) ∧
      (run M T blankId durs fuel s).tokens.length = s.tokens.length + (T - s.t) := by
  intro fuel
  induction fuel with
  | zero =>
    intro s h1 h2
    have : s.t = T := by omega
    simp [run, this]
  | succ n ih =>
    intro s h1 h2
    unfold run
    by_cases hg : s.t < T
    · rw [if_pos hg]
      have hstep := stepOnce_emit_dur0 M blankId durs s
        (hblank s.rnn s.lastLabel s.t) (hdur s.rnn s.lastLabel s.t)
      have hih := ih (stepOnce M blankId durs s) (by omega) (by omega)
      refine ⟨hih.1, ?_, ?_⟩
      · have := hih.2.1
        omega
      · have := hih.2.2
        omega
    · rw [if_neg hg]
      have : s.t = T := by omega
      simp [this]

/-- Claim C5 (amended): under a stub Joint Network that never ranks blank
highest and on every step selects a duration index whose duration value
is 0, the `max(1, ·)` floor advances `t` by exactly 1 per iteration, so
for any `mult ≥ 1` the loop terminates after exactly `T` iterations with
`T` emitted tokens, final `t = T`, and `truncated = false` — the
iteration cap of `T * mult` is never the cause of termination. -/
theorem duration_zero_stub_terminates {σ : Type} (M : TDTModel σ) (rnn0 : σ)
    (T blankId mult : Nat) (durs : List Nat) (hm : 1 ≤ mult)
    (hblank : ∀ (r : σ) (l t : Nat),
      argmaxIdx ((M.logits r l t).take (blankId + 1)) ≠ blankId)
    (hdur : ∀ (r : σ) (l t : Nat),
      durs.getD (argmaxIdx ((M.logits r l t).drop (blankId + 1))) 0 = 0) :
    (decode M rnn0 T blankId mult durs).tokens.length = T ∧
    (decode M rnn0 T blankId mult durs).iters = T ∧
    (decode M rnn0 T blankId mult durs).t = T ∧
    truncatedFlag T (T * mult) (decode M rnn0 T blankId mult durs) = false := by
  have hTm : T ≤ T * mult := by
    calc T = T * 1 := (Nat.mul_one T).symm
      _ ≤ T * mult := mul_le_mul_left' hm T
  have h := run_durzero M T blankId durs hblank hdur (T * mult)
    (initSt blankId rnn0) (by simp [initSt]) (by simp [initSt]; omega)
  have ht : (decode M rnn0 T blankId mult durs).t = T := by
    simpa [decode] using h.1
  refine ⟨?_, ?_, ht, ?_⟩
  · have := h.2.2
    simp [initSt] at this
    simpa [decode] using this
  · have := h.2.1
    simp [initSt] at this
    simpa [decode] using this
  · unfold truncatedFlag
    rw [ht]
    simp

theorem duration_zero_stub_terminates_witness :
    (decode stubDurZero 0 2 3 10 [0, 1, 2, 3, 4]).tokens.length = 2 ∧
    (decode stubDurZero 0 2 3 10 [0, 1, 2, 3, 4]).iters = 2 ∧
    (decode stubDurZero 0 2 3 10 [0, 1, 2, 3, 4]).t = 2 ∧
    truncatedFlag 2 (2 * 10) (decode stubDurZero 0 2 3 10 [0, 1, 2, 3, 4]) = false :=
  duration_zero_stub_terminates stubDurZero 0 2 3 10 [0, 1, 2, 3, 4] (by decide)
    (fun r l t =>
      show argmaxIdx (([9, 0, 0, 0, 9, 0, 0, 0, 0] : List Int).take (3 + 1)) ≠ 3 by decide)
    (fun r l t =>
      show ([0, 1, 2, 3, 4] : List Nat).getD
          (argmaxIdx (([9, 0, 0, 0, 9, 0, 0, 0, 0] : List Int).drop (3 + 1))) 0 = 0 by decide)

/-- Claim C6: with `blankId` reserved as the vocabulary size (the model's
contract), every token the decode loop emits is a valid vocabulary id:
strictly below the vocabulary size and distinct from `blankId`.  The emit
branch only runs when the argmax over `logits[:blankId+1]` differs from
`blankId`, and that argmax is always at most `blankId`. -/
theorem emitted_tokens_valid {σ : Type} (M : TDTModel σ) (rnn0 : σ)
    (T blankId mult vocabSize : Nat) (durs : List Nat)
    (hv : blankId = vocabSize) :
    ∀ x ∈ (decode M rnn0 T blankId mult durs).tokens,
      x < vocabSize ∧ x ≠ blankId := by
  intro x hx
  have h := run_tokens_lt M T blankId durs (T * mult) (initSt blankId rnn0)
    (by simp [initSt]) x (by simpa [decode] using hx)
  exact ⟨hv ▸ h, Nat.ne_of_lt h⟩

theorem emitted_tokens_valid_witness : 7 < 10 ∧ 7 ≠ 10 :=
  emitted_tokens_valid stubB 0 3 10 10 10 [0, 1, 2, 3, 4] rfl 7 (by decide)

/-- Claim C7: Scenario B — with `T = 3`, duration table `[0,1,2,3,4]` and a
stub that always ranks vocabulary id 7 highest in the vocabulary+blank
segment and duration index 2 highest in the duration segment, decode
emits `[7, 7]` (at `t = 0` advancing to 2, then at `t = 2` advancing to
`4 ≥ 3`) and is not truncated. -/
theorem scenario_b_output :
    decodeResult stubB 0 3 10 10 [0, 1, 2, 3, 4] = ([7, 7], false) ∧
    (decodeTrace stubB 0 3 10 10 [0, 1, 2, 3, 4]).map (fun s => s.t) = [0, 2, 4] := by
  decide

/-- Claim C8's concrete expectation is false on the code: for the
Scenario-D vocabulary `[▁hi, ▁there, foo, bar]` and ids `[0, 2, 1]` the
resolved pieces are `▁hi`, `foo`, `▁there`; `foo` carries no boundary
marker, so after marker-to-space substitution and trimming no space
separates it from `hi`: the assembled text is `"hifoo there"`, not
`"hi foo there"`. -/
theorem assemble_scenario_d_cex :
    assemble [0, 2, 1] vocabD ≠ "hi foo there" ∧
    assemble [0, 2, 1] vocabD = "hifoo there" := by
  decide

/-- Claim C8 (amended): token assembly concatenates the resolved pieces in
emission order, replaces every occurrence of the subword-boundary marker
glyph with a single space, then trims leading and trailing whitespace;
for the vocabulary `[▁hi, ▁there, foo, bar]` and ids `[0, 2, 1]` this
pipeline runs on `▁hi ++ foo ++ ▁there` and yields `"hifoo there"`. -/
theorem assemble_scenario_d_amended :
    assemble [0, 2, 1] vocabD =
      List.asString (pyStrip (replaceMarker
        ("▁hi".data ++ "foo".data ++ "▁there".data))) ∧
    assemble [0, 2, 1] vocabD = "hifoo there" := by
  decide

/-- Claim C9: token assembly drops every id outside the vocabulary range as
if it had never been emitted — pre-filtering the input down to the
in-range ids leaves the assembled text unchanged — and, being a total
function, it never fails; the remaining ids are resolved and assembled
normally.  (Emitted ids are natural numbers, so the lower end of the
range holds by type.) -/
theorem assemble_drops_invalid_ids (tokens : List Nat) (vocab : List String) :
    assemble tokens vocab =
      assemble (tokens.filter (fun tid => decide (tid < vocab.length))) vocab := by
  unfold assemble
  have hfp : ∀ x : Nat, (fun tid => decide (tid < vocab.length)) x = false →
      (fun tid => if tid < vocab.length then
        some (vocab.getD tid "").data else none) x = none := by
    intro x hx
    simp only [decide_eq_false_iff_not] at hx
    simp [hx]
  rw [filterMap_filter_none _ _ hfp tokens]

/-- Claim C10: every iteration of the decode loop advances `t` by at least
1 (the blank branch by exactly 1, the emit branch by `max 1 d ≥ 1`), so
for every model behavior and every multiplier ≥ 1 the loop performs at
most `T` iterations, ends with `t ≥ T`, and the truncation flag is never
set: a truncated result is unreachable in this implementation. -/
theorem step_progress_and_no_truncation {σ : Type} (M : TDTModel σ) (rnn0 : σ)
    (T blankId mult : Nat) (durs : List Nat) (hm : 1 ≤ mult) :
    (∀ s : DecSt σ, s.t + 1 ≤ (stepOnce M blankId durs s).t) ∧
    (decode M rnn0 T blankId mult durs).iters ≤ T ∧
    T ≤ (decode M rnn0 T blankId mult durs).t ∧
    truncatedFlag T (T * mult) (decode M rnn0 T blankId mult durs) = false := by
  have hTm : T ≤ T * mult := by
    calc T = T * 1 := (Nat.mul_one T).symm
      _ ≤ T * mult := mul_le_mul_left' hm T
  have hit : (decode M rnn0 T blankId mult durs).iters ≤ T := by
    have h := run_iters_le_T M T blankId durs (T * mult) (initSt blankId rnn0)
    simp [initSt] at h
    simpa [decode] using h
  have ht : T ≤ (decode M rnn0 T blankId mult durs).t := by
    have h := run_reaches M T blankId durs (T * mult) (initSt blankId rnn0)
      (by simp [initSt]; omega)
    simpa [decode] using h
  refine ⟨stepOnce_t_lt M blankId durs, hit, ht, ?_⟩
  unfold truncatedFlag
  have hf : decide ((decode M rnn0 T blankId mult durs).t < T) = false :=
    decide_eq_false (by omega)
  rw [hf, Bool.and_false]

theorem step_progress_and_no_truncation_witness :
    (decode stubBlank 0 1 2 10 [0, 1, 2, 3, 4]).iters ≤ 1 ∧
    1 ≤ (decode stubBlank 0 1 2 10 [0, 1, 2, 3, 4]).t :=
  ⟨(step_progress_and_no_truncation stubBlank 0 1 2 10 [0, 1, 2, 3, 4] (by decide)).2.1,
   (step_progress_and_no_truncation stubBlank 0 1 2 10 [0, 1, 2, 3, 4] (by decide)).2.2.1⟩
